import Mathlib

/-
  Verification of the gitleaks audit engine (davidpolaniaac/gitleaks).

  This file gives a shallow embedding of the parts of the repository that the
  checked properties are about:

  * `getLocalRepoName`, `getLeaks` and its per-commit goroutines (main.go,
    the scheduler / aggregator / cleanup logic around `git diff`),
  * `newConfig`, `Config.update` and `updateEntropyRanges` (config.go),
  * the redaction behaviour fixed by the test suite (gitleaks_test.go).

  Go strings are modelled as `List Char` where character-level operations
  matter (`strings.Split`, `strings.TrimSuffix`) and as Lean `String`
  elsewhere.  `float64` entropy bounds are modelled as `ℚ` with an exact
  decimal parser: the bounds occurring in configs are short decimal literals,
  on which rational comparison agrees with IEEE double comparison.
  The concurrent body of `getLeaks` is modelled as a small-step transition
  system over explicit scheduler actions; `exec.Command("git", ...)` results
  are supplied by oracles (one per commit), and process-global state
  (current directory, existence of the clone) is part of the configuration.
-/

namespace Gitleaks

/-! ## strings.Split / strings.TrimSuffix, and getLocalRepoName (main.go) -/

/-- Model of Go `strings.Split(s, sep)` for a one-character separator,
on strings as `List Char`.  `splitChar sep l` is the list of maximal
`sep`-free segments of `l` (never empty as a list of segments). -/
def splitChar (sep : Char) : List Char → List (List Char)
  | [] => [[]]
  | c :: cs =>
    if c = sep then [] :: splitChar sep cs
    else (c :: (splitChar sep cs).headI) :: (splitChar sep cs).tail

/-- Model of Go `strings.TrimSuffix(s, suffix)`: drop one trailing
occurrence of `suf` when present. -/
def trimSuffix (suf l : List Char) : List Char :=
  if suf.isSuffixOf l then l.take (l.length - suf.length) else l

/-- `getLocalRepoName` from main.go: last `/`-component, one `.git`
suffix trimmed, then last `:`-component. -/
def getLocalRepoName (url : List Char) : List Char :=
  let splitSlashes := splitChar '/' url
  let name := splitSlashes.getLast?.getD []
  let name' := trimSuffix ".git".toList name
  let splitColons := splitChar ':' name'
  splitColons.getLast?.getD []

/-- The suffix of `l` strictly after the last occurrence of `sep`
(`l` itself when `sep` does not occur).  This is the specification-side
description of "the substring after the last `sep`". -/
def afterLastSep (sep : Char) : List Char → List Char
  | [] => []
  | c :: cs =>
    if sep ∈ cs then afterLastSep sep cs
    else if c = sep then cs else c :: cs

theorem splitChar_ne_nil (sep : Char) (l : List Char) : splitChar sep l ≠ [] := by
  cases l with
  | nil => simp [splitChar]
  | cons c cs =>
    simp only [splitChar]
    split <;> simp

theorem splitChar_of_not_mem {sep : Char} {l : List Char} (h : sep ∉ l) :
    splitChar sep l = [l] := by
  induction l with
  | nil => rfl
  | cons c cs ih =>
    simp only [List.mem_cons, not_or] at h
    have hne : ¬c = sep := fun hcon => h.1 hcon.symm
    simp only [splitChar, ih h.2, if_neg hne, List.headI, List.tail]

theorem mem_of_splitChar_single {sep : Char} {l x : List Char}
    (h : splitChar sep l = [x]) : sep ∉ l ∧ x = l := by
  induction l generalizing x with
  | nil =>
    simp only [splitChar, List.cons.injEq] at h
    simp [h.1.symm]
  | cons c cs ih =>
    by_cases hc : c = sep
    · simp only [splitChar, if_pos hc, List.cons.injEq] at h
      exact absurd h.2 (splitChar_ne_nil sep cs)
    · simp only [splitChar, if_neg hc, List.cons.injEq] at h
      obtain ⟨hx, ht⟩ := h
      cases hs : splitChar sep cs with
      | nil => exact absurd hs (splitChar_ne_nil sep cs)
      | cons h1 t =>
        rw [hs] at hx ht
        simp only [List.tail] at ht
        subst ht
        obtain ⟨hns, hh⟩ := ih hs
        subst hh
        constructor
        · simp only [List.mem_cons, not_or]
          exact ⟨fun hcon => hc hcon.symm, hns⟩
        · rw [← hx]
          simp [List.headI]

theorem afterLastSep_of_not_mem {sep : Char} {l : List Char} (h : sep ∉ l) :
    afterLastSep sep l = l := by
  induction l with
  | nil => rfl
  | cons c cs ih =>
    simp only [List.mem_cons, not_or] at h
    have hne : ¬c = sep := fun hcon => h.1 hcon.symm
    simp only [afterLastSep, if_neg h.2, if_neg hne]

theorem splitChar_getLast? (sep : Char) (l : List Char) :
    (splitChar sep l).getLast? = some (afterLastSep sep l) := by
  induction l with
  | nil => rfl
  | cons c cs ih =>
    cases hs : splitChar sep cs with
    | nil => exact absurd hs (splitChar_ne_nil sep cs)
    | cons h1 t =>
      rw [hs] at ih
      by_cases hc : c = sep
      · simp only [splitChar, if_pos hc, hs]
        rw [List.getLast?_cons_cons, ih]
        subst hc
        simp only [afterLastSep]
        by_cases hmem : c ∈ cs
        · rw [if_pos hmem]
        · rw [if_neg hmem, afterLastSep_of_not_mem hmem]
          simp
      · simp only [splitChar, if_neg hc, hs, List.headI, List.tail]
        cases t with
        | nil =>
          obtain ⟨hns, hh⟩ := mem_of_splitChar_single hs
          subst hh
          simp only [List.getLast?_singleton, afterLastSep, if_neg hns, if_neg hc]
        | cons t1 ts =>
          rw [List.getLast?_cons_cons, ← List.getLast?_cons_cons (a := h1), ih]
          simp only [afterLastSep]
          have hmem : sep ∈ cs := by
            by_contra hnm
            rw [splitChar_of_not_mem hnm] at hs
            simp at hs
          rw [if_pos hmem]

theorem mem_afterLastSep {sep x : Char} {l : List Char}
    (h : x ∈ afterLastSep sep l) : x ∈ l := by
  induction l with
  | nil => simp [afterLastSep] at h
  | cons c cs ih =>
    simp only [afterLastSep] at h
    by_cases hmem : sep ∈ cs
    · rw [if_pos hmem] at h
      exact List.mem_cons_of_mem _ (ih h)
    · rw [if_neg hmem] at h
      by_cases hc : c = sep
      · rw [if_pos hc] at h
        exact List.mem_cons_of_mem _ h
      · rwa [if_neg hc] at h

theorem not_mem_afterLastSep (sep : Char) (l : List Char) :
    sep ∉ afterLastSep sep l := by
  induction l with
  | nil => simp [afterLastSep]
  | cons c cs ih =>
    simp only [afterLastSep]
    by_cases hmem : sep ∈ cs
    · rwa [if_pos hmem]
    · rw [if_neg hmem]
      by_cases hc : c = sep
      · rwa [if_pos hc]
      · rw [if_neg hc]
        simp only [List.mem_cons, not_or]
        exact ⟨fun hcon => hc hcon.symm, hmem⟩

theorem mem_trimSuffix {suf l : List Char} {x : Char}
    (h : x ∈ trimSuffix suf l) : x ∈ l := by
  unfold trimSuffix at h
  split at h
  · exact List.mem_of_mem_take h
  · exact h

/-- C9: for every repository URL, `getLocalRepoName` returns the substring
of the URL after the last `/` character, with a single trailing `.git`
suffix removed if present, and then the substring after the last `:`
character; `https://host/owner/name.git` and `git@host:owner/name.git`
both yield `name`, and the result never contains `/`. -/
theorem c9_getLocalRepoName_spec :
    (∀ url : List Char,
        getLocalRepoName url =
          afterLastSep ':' (trimSuffix ".git".toList (afterLastSep '/' url)) ∧
        '/' ∉ getLocalRepoName url) ∧
    getLocalRepoName "https://host/owner/name.git".toList = "name".toList ∧
    getLocalRepoName "git@host:owner/name.git".toList = "name".toList := by
  have key : ∀ url : List Char,
      getLocalRepoName url =
        afterLastSep ':' (trimSuffix ".git".toList (afterLastSep '/' url)) := by
    intro url
    simp only [getLocalRepoName, splitChar_getLast?, Option.getD_some]
  refine ⟨fun url => ⟨key url, ?_⟩, by decide, by decide⟩
  rw [key url]
  intro hmem
  exact not_mem_afterLastSep '/' url (mem_trimSuffix (mem_afterLastSep hmem))

/-! ## Entropy-range loading (config.go: updateEntropyRanges)

`strconv.ParseFloat` is modelled as an exact decimal parser into `ℚ`
(optional sign, digits with optional fraction, optional decimal exponent).
Hexadecimal floats, `Inf`/`NaN` and digit-separating underscores are not
modelled: they do not occur in entropy-range configuration strings, and no
claim depends on them. -/

/-- Accumulating decimal digit parser; fails on a non-digit. -/
def parseNatAcc : Nat → List Char → Option Nat
  | acc, [] => some acc
  | acc, c :: cs =>
    if c.isDigit then parseNatAcc (acc * 10 + (c.toNat - '0'.toNat)) cs
    else none

/-- All-digit string to `Nat`; fails when empty or containing a non-digit. -/
def parseDigits (l : List Char) : Option Nat :=
  match l with
  | [] => none
  | _ => parseNatAcc 0 l

/-- Mantissa of a decimal literal: `digits`, `digits.digits`, `digits.`
or `.digits` (at least one digit overall). -/
def parseMantissa (l : List Char) : Option ℚ :=
  match splitChar '.' l with
  | [ip] => (parseDigits ip).map (fun n => (n : ℚ))
  | [ip, fp] =>
    if ip.all Char.isDigit && fp.all Char.isDigit && !(ip.isEmpty && fp.isEmpty) then
      some ((parseNatAcc 0 ip).getD 0 + ((parseNatAcc 0 fp).getD 0 : ℚ) / (10 : ℚ) ^ fp.length)
    else none
  | _ => none

/-- Optional leading sign; returns (negative?, rest). -/
def parseSignChar : List Char → Bool × List Char
  | '+' :: cs => (false, cs)
  | '-' :: cs => (true, cs)
  | cs => (false, cs)

/-- Model of `strconv.ParseFloat` on the decimal fragment, as an exact
rational. -/
def parseFloat (l : List Char) : Option ℚ :=
  let sgn := parseSignChar l
  let body := sgn.2.span (fun c => !(c = 'e' || c = 'E'))
  match parseMantissa body.1 with
  | none => none
  | some m =>
    match body.2 with
    | [] => some (if sgn.1 then -m else m)
    | _ :: es =>
      let esgn := parseSignChar es
      match parseDigits esgn.2 with
      | none => none
      | some e =>
        let v := if esgn.1 then m / (10 : ℚ) ^ e else m * (10 : ℚ) ^ e
        some (if sgn.1 then -v else v)

/-- One entropy range (`float64` bounds as exact rationals). -/
structure EntropyRangeQ where
  v1 : ℚ
  v2 : ℚ
deriving DecidableEq

/-- How `updateEntropyRanges` can fail: a returned `error` value, or a Go
runtime panic (`split[1]` indexing when the span has no `-`). -/
inductive ConfigErr where
  | msg (s : String)
  | indexPanic
deriving DecidableEq

/-- Processing of one `"low-high"` span, mirroring the body of the loop in
`updateEntropyRanges` (config.go): split on `-`, parse `split[0]` and
`split[1]`, reject descending ranges, then reject bounds outside
`[0.0, 8.0]`. -/
def parseSpan (span : String) : Except ConfigErr EntropyRangeQ :=
  match splitChar '-' span.toList with
  | s0 :: s1 :: _ =>
    match parseFloat s0 with
    | none => Except.error (ConfigErr.msg "invalid syntax")
    | some v1 =>
      match parseFloat s1 with
      | none => Except.error (ConfigErr.msg "invalid syntax")
      | some v2 =>
        if v1 > v2 then Except.error (ConfigErr.msg "entropy range must be ascending")
        else if v1 > 8 ∨ v1 < 0 ∨ v2 > 8 ∨ v2 < 0 then
          Except.error (ConfigErr.msg "invalid entropy ranges, must be within 0.0-8.0")
        else Except.ok { v1 := v1, v2 := v2 }
  | _ => Except.error ConfigErr.indexPanic

/-- `updateEntropyRanges` (config.go): hydrate the config's entropy ranges
from the `Misc.Entropy` span strings, stopping at the first failing span.
On error the caller (`newConfig`) discards the whole `Config`, so the
loaded configuration gains no ranges. -/
def updateEntropyRanges : List String → Except ConfigErr (List EntropyRangeQ)
  | [] => Except.ok []
  | s :: rest =>
    match parseSpan s with
    | Except.error e => Except.error e
    | Except.ok r => (updateEntropyRanges rest).map (fun l => r :: l)

/-- C4: a descending entropy range (parsed low bound greater than parsed
high bound, e.g. `5-3`) makes configuration loading return an error value,
and so does a range with a bound outside `[0.0, 8.0]` (e.g. `-1-9`, whose
leading `-` already makes `split[0]` unparsable); in all these cases the
error is a returned value, not a runtime panic, and the loaded
configuration contains no ranges. -/
theorem c4_entropy_range_validation :
    (∀ (s : String) (s0 s1 : List Char) (rest : List (List Char)) (v1 v2 : ℚ),
        splitChar '-' s.toList = s0 :: s1 :: rest →
        parseFloat s0 = some v1 →
        parseFloat s1 = some v2 →
        (v1 > v2 ∨ v1 > 8 ∨ v1 < 0 ∨ v2 > 8 ∨ v2 < 0) →
        ∃ m : String, updateEntropyRanges [s] = Except.error (ConfigErr.msg m)) ∧
    updateEntropyRanges ["5-3"] =
      Except.error (ConfigErr.msg "entropy range must be ascending") ∧
    updateEntropyRanges ["-1-9"] =
      Except.error (ConfigErr.msg "invalid syntax") ∧
    updateEntropyRanges ["0-9"] =
      Except.error (ConfigErr.msg "invalid entropy ranges, must be within 0.0-8.0") := by
  refine ⟨?_, by rfl, by rfl, by rfl⟩
  intro s s0 s1 rest v1 v2 hsplit h0 h1 hbad
  have hspan : ∃ m : String, parseSpan s = Except.error (ConfigErr.msg m) := by
    simp only [parseSpan, hsplit, h0, h1]
    by_cases hasc : v1 > v2
    · exact ⟨_, by rw [if_pos hasc]⟩
    · have hout : v1 > 8 ∨ v1 < 0 ∨ v2 > 8 ∨ v2 < 0 := by
        rcases hbad with h | h
        · exact absurd h hasc
        · exact h
      exact ⟨_, by rw [if_neg hasc, if_pos hout]⟩
  obtain ⟨m, hm⟩ := hspan
  exact ⟨m, by simp only [updateEntropyRanges, hm]⟩

theorem c4_entropy_range_validation_witness :
    splitChar '-' "5-3".toList = ["5".toList, "3".toList] ∧
    (∃ m : String, updateEntropyRanges ["5-3"] = Except.error (ConfigErr.msg m)) :=
  ⟨rfl, c4_entropy_range_validation.1 "5-3" "5".toList "3".toList [] 5 3 (by decide)
    (by decide) (by decide) (Or.inl (by norm_num))⟩

/-! ## Commit dispatch (main.go: the loop over `git rev-list` output) -/

/-- The commits dispatched for audit by the loop in `getLeaks` (main.go):
empty lines of the `git rev-list` output are skipped (`continue`), and the
loop `break`s when it reaches `opts.SinceCommit` (the stop commit), before
dispatching it. -/
def dispatchList (stop : String) : List String → List String
  | [] => []
  | c :: rest =>
    if c = "" then dispatchList stop rest
    else if c = stop then []
    else c :: dispatchList stop rest

/-- Modelled from the spec: the `maxDepth` truncation of the audited commit
sequence.  Depth handling is not part of the `getLeaks` loop under `src/`
(only `--depth` in the README documents it); per the spec the sequence is
"truncated at `stopAtCommit` (exclusive) or `maxDepth`". -/
def auditSequence (stop : String) (maxDepth : Option Nat) (commits : List String) :
    List String :=
  match maxDepth with
  | none => dispatchList stop commits
  | some n => (dispatchList stop commits).take n

theorem dispatchList_eq_takeWhile_filter {stop : String} (hstop : stop ≠ "")
    (commits : List String) :
    dispatchList stop commits =
      (commits.takeWhile (fun c => c ≠ stop)).filter (fun c => c ≠ "") := by
  induction commits with
  | nil => rfl
  | cons c rest ih =>
    by_cases hce : c = ""
    · subst hce
      have hne : ("" : String) ≠ stop := fun hcon => hstop hcon.symm
      simp only [dispatchList, if_pos rfl, List.takeWhile_cons]
      rw [ih]
      simp [hne]
    · by_cases hcs : c = stop
      · subst hcs
        simp [dispatchList, hce, List.takeWhile_cons]
      · simp only [dispatchList, if_neg hce, if_neg hcs, List.takeWhile_cons]
        rw [ih]
        simp [hcs, hce]

theorem stop_not_mem_dispatchList {stop : String} (hstop : stop ≠ "")
    (commits : List String) : stop ∉ dispatchList stop commits := by
  rw [dispatchList_eq_takeWhile_filter hstop]
  intro hmem
  have := List.mem_takeWhile_imp (List.mem_of_mem_filter hmem)
  simp at this

/-- C5: with a stop commit configured (non-empty, present in the
reverse-topological `rev-list` output), the audited sequence is exactly the
prefix of that order strictly before the stop commit (empty lines
dropped): every commit preceding the stop commit is dispatched, and the
stop commit and everything at or after it is not; a configured maximum
depth truncates this sequence to at most that many commits. -/
theorem c5_stop_commit_boundary {stop : String} (commits : List String)
    (hstop : stop ≠ "") (hnd : commits.Nodup) :
    dispatchList stop commits =
      (commits.takeWhile (fun c => c ≠ stop)).filter (fun c => c ≠ "") ∧
    (∀ c ∈ commits.takeWhile (fun c => c ≠ stop), c ≠ "" →
      c ∈ dispatchList stop commits) ∧
    stop ∉ dispatchList stop commits ∧
    (∀ c ∈ commits.dropWhile (fun c => c ≠ stop), c ∉ dispatchList stop commits) ∧
    (∀ n, auditSequence stop (some n) commits = (dispatchList stop commits).take n ∧
      (auditSequence stop (some n) commits).length ≤ n) := by
  refine ⟨dispatchList_eq_takeWhile_filter hstop commits, ?_, ?_, ?_, ?_⟩
  · intro c hc hne
    rw [dispatchList_eq_takeWhile_filter hstop]
    rw [List.mem_filter]
    exact ⟨hc, by simp [hne]⟩
  · exact stop_not_mem_dispatchList hstop commits
  · intro c hcdrop hcdisp
    rw [dispatchList_eq_takeWhile_filter hstop] at hcdisp
    have hctake : c ∈ commits.takeWhile (fun c => c ≠ stop) :=
      List.mem_of_mem_filter hcdisp
    have hsplit : commits.takeWhile (fun c => c ≠ stop) ++
        commits.dropWhile (fun c => c ≠ stop) = commits :=
      List.takeWhile_append_dropWhile _ _
    have hdisj : List.Disjoint (commits.takeWhile (fun c => c ≠ stop))
        (commits.dropWhile (fun c => c ≠ stop)) := by
      apply List.disjoint_of_nodup_append
      rw [hsplit]
      exact hnd
    exact hdisj hctake hcdrop
  · intro n
    refine ⟨rfl, ?_⟩
    simp only [auditSequence, List.length_take]
    exact min_le_left _ _

theorem c5_stop_commit_boundary_witness :
    dispatchList "s" ["a", "b", "s", "c"] = ["a", "b"] ∧
    ("s" : String) ∉ dispatchList "s" ["a", "b", "s", "c"] :=
  ⟨by rw [(c5_stop_commit_boundary ["a", "b", "s", "c"] (by decide) (by decide)).1]
      rfl,
   (c5_stop_commit_boundary ["a", "b", "s", "c"] (by decide) (by decide)).2.2.1⟩

/-! ## Rule-list construction (config.go: Config.update) -/

/-- A compiled rule: a description and the pattern it was compiled from
(regex compilation itself is not modelled; `Config.update` compiles with
`regexp.MustCompile` and stores the description alongside). -/
structure Rule where
  description : String
  pattern : String
deriving DecidableEq

/-- The `config.Regexes` construction inside `Config.update` (config.go):
when a single-search pattern is set it is appended as the rule
`"single search"`; otherwise every configured `[[regexes]]` entry is
appended in order.  `base` is the rule list already present on the config
(empty for the fresh config built by `newConfig`). -/
def updateRegexes (base : List Rule) (singleSearch : Option String)
    (tomlRegexes : List (String × String)) : List Rule :=
  match singleSearch with
  | some p => base ++ [{ description := "single search", pattern := p }]
  | none => base ++ tomlRegexes.map (fun rd => { description := rd.1, pattern := rd.2 })

/-- C6: with a single-pattern override, the rule list built at
configuration time is exactly the one-element list holding that pattern
(so no configured rule is included); without an override it is exactly the
configured rules, in configuration order. -/
theorem c6_single_search_override :
    (∀ (p : String) (tomlRegexes : List (String × String)),
        updateRegexes [] (some p) tomlRegexes =
          [{ description := "single search", pattern := p }] ∧
        ∀ r ∈ updateRegexes [] (some p) tomlRegexes,
          r = { description := "single search", pattern := p }) ∧
    (∀ tomlRegexes : List (String × String),
        updateRegexes [] none tomlRegexes =
          tomlRegexes.map (fun rd => { description := rd.1, pattern := rd.2 })) := by
  refine ⟨fun p tomlRegexes => ⟨rfl, ?_⟩, fun tomlRegexes => by
    simp [updateRegexes]⟩
  intro r hr
  simp only [updateRegexes, List.nil_append, List.mem_singleton] at hr
  exact hr

/-! ## Configuration-source resolution (config.go: newConfig) -/

/-- Where `newConfig` ends up reading the TOML document from. -/
inductive ConfigSource where
  | file (path : String)
  | builtin
deriving DecidableEq

/-- The source-resolution logic of `newConfig` (config.go): an explicit
`--config` path must exist (`os.Stat`), with no fallback on failure;
otherwise the `GITLEAKS_CONFIG` environment variable is consulted; an
empty resulting path means the built-in `defaultConfig` document.
`statExists` abstracts `os.Stat` succeeding on a path. -/
def newConfig (optsConfigPath : String) (statExists : String → Bool)
    (envPath : String) : Except String ConfigSource :=
  let resolved : Except String String :=
    if optsConfigPath ≠ "" then
      if statExists optsConfigPath then Except.ok optsConfigPath
      else Except.error ("no gitleaks config at " ++ optsConfigPath)
    else Except.ok envPath
  match resolved with
  | Except.error e => Except.error e
  | Except.ok configPath =>
    if configPath ≠ "" then Except.ok (ConfigSource.file configPath)
    else Except.ok ConfigSource.builtin

/-- C10: configuration loading resolves its source with strict precedence
and no silent fallback: an explicit config path that fails `os.Stat` yields
the error `no gitleaks config at <path>` regardless of the environment; an
existing explicit path is used; with no explicit path the
`GITLEAKS_CONFIG` path is used; with neither, the built-in default
configuration is loaded. -/
theorem c10_config_precedence :
    (∀ (p : String) (statExists : String → Bool) (envPath : String),
        p ≠ "" → statExists p = false →
        newConfig p statExists envPath =
          Except.error ("no gitleaks config at " ++ p)) ∧
    (∀ (p : String) (statExists : String → Bool) (envPath : String),
        p ≠ "" → statExists p = true →
        newConfig p statExists envPath = Except.ok (ConfigSource.file p)) ∧
    (∀ (statExists : String → Bool) (envPath : String),
        envPath ≠ "" →
        newConfig "" statExists envPath = Except.ok (ConfigSource.file envPath)) ∧
    (∀ statExists : String → Bool,
        newConfig "" statExists "" = Except.ok ConfigSource.builtin) := by
  refine ⟨?_, ?_, ?_, ?_⟩
  · intro p statExists envPath hp hstat
    simp [newConfig, hp, hstat]
  · intro p statExists envPath hp hstat
    simp [newConfig, hp, hstat]
  · intro statExists envPath henv
    simp [newConfig, henv]
  · intro statExists
    simp [newConfig]

theorem c10_config_precedence_witness :
    (("missing.toml" : String) ≠ "") ∧
    newConfig "missing.toml" (fun _ => false) "env.toml" =
      Except.error ("no gitleaks config at " ++ "missing.toml") ∧
    newConfig "" (fun _ => false) "env.toml" =
      Except.ok (ConfigSource.file "env.toml") :=
  ⟨by decide,
   c10_config_precedence.1 "missing.toml" (fun _ => false) "env.toml" (by decide) rfl,
   c10_config_precedence.2.2.1 (fun _ => false) "env.toml" (by decide)⟩

/-! ## Redaction in the final report

The leak-construction code of the audit stage (`auditGitRepo`) is not under
`src/`; only its test (`gitleaks_test.go`, which checks
`leaks[0].Offender == "REDACTED"` alongside an unchanged leak count) and
the spec describe it.  The redaction step is therefore modelled from the
spec's words. -/

/-- A full leak record, with the fields the spec's data model lists. -/
structure Leak where
  line : String
  commit : String
  offender : String
  reason : String
  file : String
  branch : String
  author : String
  repo : String
deriving DecidableEq

/-- Modelled from the spec: "redact mode replaces every leak's offending
substring with a fixed placeholder in both console output and the final
report, without altering any other field or suppressing the leak itself."
The placeholder is the `"REDACTED"` the test suite asserts.  `redactLeak`
is applied to each surviving leak when building the report. -/
def redactLeak (redact : Bool) (l : Leak) : Leak :=
  if redact then { l with offender := "REDACTED" } else l

/-- Modelled from the spec: the final report is the surviving candidates,
each passed through the redaction step under the `--redact` option. -/
def finalReport (redact : Bool) (survivors : List Leak) : List Leak :=
  survivors.map (redactLeak redact)

/-- C7: with redact mode on, every leak of the final report has offender
`REDACTED`, and the report is field-for-field identical to the
non-redacted report over the same input except for the offender field; in
particular no leak is suppressed (same length). -/
theorem c7_redact_mode (survivors : List Leak) :
    (finalReport true survivors).length = (finalReport false survivors).length ∧
    (∀ l ∈ finalReport true survivors, l.offender = "REDACTED") ∧
    (finalReport true survivors).map Leak.line =
      (finalReport false survivors).map Leak.line ∧
    (finalReport true survivors).map Leak.commit =
      (finalReport false survivors).map Leak.commit ∧
    (finalReport true survivors).map Leak.reason =
      (finalReport false survivors).map Leak.reason ∧
    (finalReport true survivors).map Leak.file =
      (finalReport false survivors).map Leak.file ∧
    (finalReport true survivors).map Leak.branch =
      (finalReport false survivors).map Leak.branch ∧
    (finalReport true survivors).map Leak.author =
      (finalReport false survivors).map Leak.author ∧
    (finalReport true survivors).map Leak.repo =
      (finalReport false survivors).map Leak.repo := by
  refine ⟨by simp [finalReport], ?_, ?_, ?_, ?_, ?_, ?_, ?_, ?_⟩
  · intro l hl
    simp only [finalReport, List.mem_map] at hl
    obtain ⟨l0, _, hmap⟩ := hl
    rw [← hmap]
    rfl
  all_goals
    simp only [finalReport, List.map_map]
    rfl

/-- A concrete surviving leak candidate used by witnesses. -/
def sampleLeak : Leak :=
  { line := "aws_key := \x22AKIAXXXX\x22", commit := "c0ffee", offender := "AKIAXXXX",
    reason := "AWS", file := "f.go", branch := "master", author := "a", repo := "r" }

theorem c7_redact_mode_witness :
    (redactLeak true sampleLeak).offender = "REDACTED" ∧
    (finalReport true [sampleLeak]).length = (finalReport false [sampleLeak]).length :=
  ⟨(c7_redact_mode [sampleLeak]).2.1 (redactLeak true sampleLeak)
      (by simp [finalReport]),
    (c7_redact_mode [sampleLeak]).1⟩

/-! ## The concurrent body of getLeaks (main.go)

`getLeaks` dispatches one goroutine per commit of `dispatchList`.  Each
goroutine runs, in order:

  1. `os.Chdir(appRoot/repoName)` — `log.Fatal` (process abort) on error,
  2. `semaphoreChan <- struct{}{}` — acquire one of `opts.Concurrency`
     permits,
  3. `out, err := exec.Command("git", "diff", commit^!).Output()`,
  4. `<-semaphoreChan` — release the permit,
  5. on `err != nil`: print the warning and call `cleanup(repoName)`
     (which `os.Chdir`s the whole process back to `appRoot` and
     `rm -rf`s the clone), then return;
  6. otherwise `doChecks` the diff and send each leak over the unbuffered
     `gitLeaks` channel (guarded by `gitLeakReceiverWG.Add(1)`).

A single aggregator goroutine receives from `gitLeaks`, appends to
`report`, and calls `gitLeakReceiverWG.Done()`.  `getLeaks` returns
`report` after `commitWG.Wait()` and `gitLeakReceiverWG.Wait()`.

The model makes every interleaving point explicit.  `os.Chdir` is
process-global: `cwd` tells whether the process currently sits in the
clone, `repoExists` whether the clone still exists on disk.  A `git diff`
only succeeds if the clone exists and the process still sits in it; its
per-commit result is an oracle `diff : String → Option String`
(`none` = non-zero exit).  `doChecks` is an oracle
`checks : diff output → commit → List LeakElem`.  `emitted` is a ghost
log of every leak handed over the channel. -/

/-- `LeakElem` from main.go. -/
structure LeakElem where
  line : String
  commit : String
  offender : String
  reason : String
deriving DecidableEq

/-- Program counter of one per-commit goroutine. -/
inductive TaskPC where
  /-- before `os.Chdir(appRoot/repoName)` -/
  | start
  /-- before `semaphoreChan <- struct{}{}` -/
  | waitPermit
  /-- inside `git diff` (holding a permit) -/
  | diffing
  /-- `git diff` returned (`none` = error), permit not yet released -/
  | postDiff (res : Option String)
  /-- error path: about to run `cleanup(repoName)` -/
  | cleanupPhase
  /-- leaks left to send over the channel -/
  | emit (queue : List LeakElem)
  /-- blocked in the channel send (after `gitLeakReceiverWG.Add(1)`) -/
  | sendWait (l : LeakElem) (queue : List LeakElem)
  /-- goroutine returned (`commitWG.Done`) -/
  | done
deriving DecidableEq

/-- Whole-audit configuration: goroutines plus the process-global state. -/
structure Cfg where
  /-- one entry per dispatched commit: (commit sha, goroutine pc) -/
  tasks : List (String × TaskPC)
  /-- permits currently taken from `semaphoreChan` -/
  permits : Nat
  /-- `opts.Concurrency`, the semaphore capacity -/
  limit : Nat
  /-- the process currently sits inside the clone directory -/
  cwd : Bool
  /-- the clone still exists on disk -/
  repoExists : Bool
  /-- leak taken by the aggregator, not yet appended to the report -/
  recv : Option LeakElem
  /-- `gitLeakReceiverWG` counter -/
  pending : Nat
  /-- the `report` slice -/
  report : List LeakElem
  /-- ghost: every leak handed over the `gitLeaks` channel, in order -/
  emitted : List LeakElem

/-- Scheduler actions: which goroutine takes its next enabled step. -/
inductive Act where
  | chdir (i : Nat)
  | acquire (i : Nat)
  | diffRet (i : Nat)
  | release (i : Nat)
  | cleanupRun (i : Nat)
  | send (i : Nat)
  | recvStep (i : Nat)
  | process
  | finish (i : Nat)
deriving DecidableEq

/-- Result of attempting one action. -/
inductive StepRes where
  /-- the action was enabled and produced the next configuration -/
  | ok (c : Cfg)
  /-- `log.Fatal` fired (process abort) -/
  | abort
  /-- the action is not enabled in this configuration -/
  | blocked

/-- `os.Chdir(appRoot/repoName)` at the top of goroutine `i`:
`log.Fatal` if the clone is gone. -/
def stepChdir (cfg : Cfg) (i : Nat) : StepRes :=
  match cfg.tasks.get? i with
  | some (c, TaskPC.start) =>
    if cfg.repoExists then
      StepRes.ok { cfg with tasks := cfg.tasks.set i (c, TaskPC.waitPermit), cwd := true }
    else StepRes.abort
  | _ => StepRes.blocked

/-- `semaphoreChan <- struct{}{}`: blocks while `opts.Concurrency` permits
are out. -/
def stepAcquire (cfg : Cfg) (i : Nat) : StepRes :=
  match cfg.tasks.get? i with
  | some (c, TaskPC.waitPermit) =>
    if cfg.permits < cfg.limit then
      StepRes.ok { cfg with tasks := cfg.tasks.set i (c, TaskPC.diffing),
                            permits := cfg.permits + 1 }
    else StepRes.blocked
  | _ => StepRes.blocked

/-- `git diff commit^!` returns: the result is the per-commit oracle when
the clone still exists and the process still sits in it, an error
otherwise.  The permit is still held. -/
def stepDiffRet (diff : String → Option String) (cfg : Cfg) (i : Nat) : StepRes :=
  match cfg.tasks.get? i with
  | some (c, TaskPC.diffing) =>
    StepRes.ok { cfg with
      tasks := cfg.tasks.set i
        (c, TaskPC.postDiff (if cfg.repoExists && cfg.cwd then diff c else none)) }
  | _ => StepRes.blocked

/-- `<-semaphoreChan` directly after the diff returns, then the `err`
check: the error path heads into `cleanup`, the success path computes
`doChecks` on the diff output. -/
def stepRelease (checks : String → String → List LeakElem) (cfg : Cfg) (i : Nat) :
    StepRes :=
  match cfg.tasks.get? i with
  | some (c, TaskPC.postDiff res) =>
    StepRes.ok { cfg with
      tasks := cfg.tasks.set i
        (c, match res with
            | none => TaskPC.cleanupPhase
            | some out => TaskPC.emit (checks out c)),
      permits := cfg.permits - 1 }
  | _ => StepRes.blocked

/-- `cleanup(repoName)` on the error path: `os.Chdir(appRoot)` (process
global) and `rm -rf repoName`; then the goroutine returns. -/
def stepCleanup (cfg : Cfg) (i : Nat) : StepRes :=
  match cfg.tasks.get? i with
  | some (c, TaskPC.cleanupPhase) =>
    StepRes.ok { cfg with tasks := cfg.tasks.set i (c, TaskPC.done),
                          cwd := false, repoExists := false }
  | _ => StepRes.blocked

/-- `gitLeakReceiverWG.Add(1)` followed by entering the blocking channel
send of the head leak. -/
def stepSend (cfg : Cfg) (i : Nat) : StepRes :=
  match cfg.tasks.get? i with
  | some (c, TaskPC.emit (l :: rest)) =>
    StepRes.ok { cfg with tasks := cfg.tasks.set i (c, TaskPC.sendWait l rest),
                          pending := cfg.pending + 1 }
  | _ => StepRes.blocked

/-- The aggregator receives from the channel (rendezvous: the blocked
sender resumes); the leak is now held by the aggregator, recorded in the
ghost `emitted` log. -/
def stepRecv (cfg : Cfg) (i : Nat) : StepRes :=
  match cfg.recv with
  | some _ => StepRes.blocked
  | none =>
    match cfg.tasks.get? i with
    | some (c, TaskPC.sendWait l rest) =>
      StepRes.ok { cfg with tasks := cfg.tasks.set i (c, TaskPC.emit rest),
                            recv := some l, emitted := cfg.emitted ++ [l] }
    | _ => StepRes.blocked

/-- The aggregator appends the received leak to `report` and calls
`gitLeakReceiverWG.Done()`. -/
def stepProcess (cfg : Cfg) : StepRes :=
  match cfg.recv with
  | some l =>
    StepRes.ok { cfg with recv := none, report := cfg.report ++ [l],
                          pending := cfg.pending - 1 }
  | none => StepRes.blocked

/-- The goroutine returns after its last send (also when `doChecks` found
nothing): `commitWG.Done` via the deferred call. -/
def stepFinish (cfg : Cfg) (i : Nat) : StepRes :=
  match cfg.tasks.get? i with
  | some (c, TaskPC.emit []) =>
    StepRes.ok { cfg with tasks := cfg.tasks.set i (c, TaskPC.done) }
  | _ => StepRes.blocked

/-- One scheduler step of the `getLeaks` machine. -/
def step (diff : String → Option String) (checks : String → String → List LeakElem)
    (cfg : Cfg) : Act → StepRes
  | Act.chdir i => stepChdir cfg i
  | Act.acquire i => stepAcquire cfg i
  | Act.diffRet i => stepDiffRet diff cfg i
  | Act.release i => stepRelease checks cfg i
  | Act.cleanupRun i => stepCleanup cfg i
  | Act.send i => stepSend cfg i
  | Act.recvStep i => stepRecv cfg i
  | Act.process => stepProcess cfg
  | Act.finish i => stepFinish cfg i

def isDone : TaskPC → Bool
  | TaskPC.done => true
  | _ => false

/-- `commitWG.Wait()` and `gitLeakReceiverWG.Wait()` both pass: every
goroutine has returned and every `Add` has been matched by a `Done`. -/
def canReturn (cfg : Cfg) : Bool :=
  cfg.tasks.all (fun t => isDone t.2) && cfg.pending == 0

/-- Run a schedule, stopping at the first abort or non-enabled action. -/
def execList (diff : String → Option String)
    (checks : String → String → List LeakElem) : Cfg → List Act → Option Cfg
  | cfg, [] => some cfg
  | cfg, a :: as =>
    match step diff checks cfg a with
    | StepRes.ok c' => execList diff checks c' as
    | _ => none

/-- Outcome of one complete run of `getLeaks` under a given schedule. -/
inductive Outcome where
  /-- both waits passed; `getLeaks` returned this report -/
  | completed (report : List LeakElem)
  /-- `log.Fatal` fired: the process died, no report was returned -/
  | aborted
  /-- the schedule was not a complete run -/
  | incomplete
deriving DecidableEq

/-- Run a schedule to the end of `getLeaks`. -/
def runList (diff : String → Option String)
    (checks : String → String → List LeakElem) : Cfg → List Act → Outcome
  | cfg, [] => if canReturn cfg then Outcome.completed cfg.report else Outcome.incomplete
  | cfg, a :: as =>
    match step diff checks cfg a with
    | StepRes.ok c' => runList diff checks c' as
    | StepRes.abort => Outcome.aborted
    | StepRes.blocked => Outcome.incomplete

/-- The configuration at the top of `getLeaks`: one goroutine per
dispatched commit; `start` already `os.Chdir`ed into the fresh clone. -/
def initCfg (commits : List String) (stop : String) (limit : Nat) : Cfg :=
  { tasks := (dispatchList stop commits).map (fun c => (c, TaskPC.start)),
    permits := 0, limit := limit, cwd := true, repoExists := true,
    recv := none, pending := 0, report := [], emitted := [] }

/-! ### Concrete runs: diff failure is not recovered locally -/

/-- A diff oracle where commit `c1`'s diff fails and `c2`'s succeeds. -/
def failingDiffOracle : String → Option String :=
  fun c => if c = "c2" then some "d2" else none

/-- A `doChecks` oracle reporting one leak per audited diff. -/
def simpleChecks : String → String → List LeakElem :=
  fun _ c => [{ line := "l", commit := c, offender := "o", reason := "AWS" }]

/-- C1 (divergence witness): in a two-commit audit where `c1`'s diff
extraction fails, the failing goroutine runs `cleanup`, deleting the clone
and chdir-ing the process out of it; the sibling goroutine for `c2` then
hits `log.Fatal` in its `os.Chdir`, aborting the entire audit — instead of
the failure staying local to `c1` and the audit completing with `c2`'s
leaks. -/
theorem c1_diff_failure_aborts_audit :
    runList failingDiffOracle simpleChecks (initCfg ["c1", "c2"] "" 1)
      [Act.chdir 0, Act.acquire 0, Act.diffRet 0, Act.release 0,
       Act.cleanupRun 0, Act.chdir 1] = Outcome.aborted := by
  decide

/-- C2 (counterexample): two complete runs of the audit over the same
commit set and rule configuration, with concurrency limits 1 and 2, whose
leak multisets differ: when `c1`'s diff fails after `c2`'s goroutine has
already finished, the audit completes with `c2`'s leak; when `c1`'s
failure (and its `cleanup`) comes first, `c2`'s diff also fails against
the deleted clone and the audit completes empty. -/
theorem c2_concurrency_counterexample :
    runList failingDiffOracle simpleChecks (initCfg ["c1", "c2"] "" 1)
      [Act.chdir 1, Act.acquire 1, Act.diffRet 1, Act.release 1, Act.send 1,
       Act.recvStep 1, Act.process, Act.finish 1, Act.chdir 0, Act.acquire 0,
       Act.diffRet 0, Act.release 0, Act.cleanupRun 0] =
      Outcome.completed [{ line := "l", commit := "c2", offender := "o", reason := "AWS" }] ∧
    runList failingDiffOracle simpleChecks (initCfg ["c1", "c2"] "" 2)
      [Act.chdir 1, Act.chdir 0, Act.acquire 0, Act.diffRet 0, Act.release 0,
       Act.cleanupRun 0, Act.acquire 1, Act.diffRet 1, Act.release 1,
       Act.cleanupRun 1] = Outcome.completed [] ∧
    Multiset.ofList
        [{ line := "l", commit := "c2", offender := "o", reason := "AWS" }] ≠
      Multiset.ofList ([] : List LeakElem) := by
  refine ⟨by decide, by decide, by decide⟩

/-! ### Step inversion lemmas -/

theorem stepChdir_ok {cfg : Cfg} {i : Nat} {cfg' : Cfg}
    (h : stepChdir cfg i = StepRes.ok cfg') :
    ∃ c, cfg.tasks.get? i = some (c, TaskPC.start) ∧ cfg.repoExists = true ∧
      cfg' = { cfg with tasks := cfg.tasks.set i (c, TaskPC.waitPermit),
                        cwd := true } := by
  unfold stepChdir at h
  split at h
  next c hg =>
    split at h
    next hre =>
      injection h with h
      exact ⟨c, hg, hre, h.symm⟩
    next hre => exact StepRes.noConfusion h
  next => exact StepRes.noConfusion h

theorem stepAcquire_ok {cfg : Cfg} {i : Nat} {cfg' : Cfg}
    (h : stepAcquire cfg i = StepRes.ok cfg') :
    ∃ c, cfg.tasks.get? i = some (c, TaskPC.waitPermit) ∧
      cfg.permits < cfg.limit ∧
      cfg' = { cfg with tasks := cfg.tasks.set i (c, TaskPC.diffing),
                        permits := cfg.permits + 1 } := by
  unfold stepAcquire at h
  split at h
  next c hg =>
    split at h
    next hlt =>
      injection h with h
      exact ⟨c, hg, hlt, h.symm⟩
    next => exact StepRes.noConfusion h
  next => exact StepRes.noConfusion h

theorem stepDiffRet_ok {diff : String → Option String} {cfg : Cfg} {i : Nat}
    {cfg' : Cfg} (h : stepDiffRet diff cfg i = StepRes.ok cfg') :
    ∃ c, cfg.tasks.get? i = some (c, TaskPC.diffing) ∧
      cfg' = { cfg with
        tasks := cfg.tasks.set i
          (c, TaskPC.postDiff (if cfg.repoExists && cfg.cwd then diff c else none)) } := by
  unfold stepDiffRet at h
  split at h
  next c hg =>
    injection h with h
    exact ⟨c, hg, h.symm⟩
  next => exact StepRes.noConfusion h

theorem stepRelease_ok {checks : String → String → List LeakElem} {cfg : Cfg}
    {i : Nat} {cfg' : Cfg} (h : stepRelease checks cfg i = StepRes.ok cfg') :
    ∃ c res, cfg.tasks.get? i = some (c, TaskPC.postDiff res) ∧
      cfg' = { cfg with
        tasks := cfg.tasks.set i
          (c, match res with
              | none => TaskPC.cleanupPhase
              | some out => TaskPC.emit (checks out c)),
        permits := cfg.permits - 1 } := by
  unfold stepRelease at h
  split at h
  next c res hg =>
    injection h with h
    exact ⟨c, res, hg, h.symm⟩
  next => exact StepRes.noConfusion h

theorem stepCleanup_ok {cfg : Cfg} {i : Nat} {cfg' : Cfg}
    (h : stepCleanup cfg i = StepRes.ok cfg') :
    ∃ c, cfg.tasks.get? i = some (c, TaskPC.cleanupPhase) ∧
      cfg' = { cfg with tasks := cfg.tasks.set i (c, TaskPC.done),
                        cwd := false, repoExists := false } := by
  unfold stepCleanup at h
  split at h
  next c hg =>
    injection h with h
    exact ⟨c, hg, h.symm⟩
  next => exact StepRes.noConfusion h

theorem stepSend_ok {cfg : Cfg} {i : Nat} {cfg' : Cfg}
    (h : stepSend cfg i = StepRes.ok cfg') :
    ∃ c l rest, cfg.tasks.get? i = some (c, TaskPC.emit (l :: rest)) ∧
      cfg' = { cfg with tasks := cfg.tasks.set i (c, TaskPC.sendWait l rest),
                        pending := cfg.pending + 1 } := by
  unfold stepSend at h
  split at h
  next c l rest hg =>
    injection h with h
    exact ⟨c, l, rest, hg, h.symm⟩
  next => exact StepRes.noConfusion h

theorem stepRecv_ok {cfg : Cfg} {i : Nat} {cfg' : Cfg}
    (h : stepRecv cfg i = StepRes.ok cfg') :
    cfg.recv = none ∧
    ∃ c l rest, cfg.tasks.get? i = some (c, TaskPC.sendWait l rest) ∧
      cfg' = { cfg with tasks := cfg.tasks.set i (c, TaskPC.emit rest),
                        recv := some l, emitted := cfg.emitted ++ [l] } := by
  unfold stepRecv at h
  split at h
  next => exact StepRes.noConfusion h
  next hrecv =>
    split at h
    next c l rest hg =>
      injection h with h
      exact ⟨hrecv, c, l, rest, hg, h.symm⟩
    next => exact StepRes.noConfusion h

theorem stepProcess_ok {cfg : Cfg} {cfg' : Cfg}
    (h : stepProcess cfg = StepRes.ok cfg') :
    ∃ l, cfg.recv = some l ∧
      cfg' = { cfg with recv := none, report := cfg.report ++ [l],
                        pending := cfg.pending - 1 } := by
  unfold stepProcess at h
  split at h
  next l hrecv =>
    injection h with h
    exact ⟨l, hrecv, h.symm⟩
  next => exact StepRes.noConfusion h

theorem stepFinish_ok {cfg : Cfg} {i : Nat} {cfg' : Cfg}
    (h : stepFinish cfg i = StepRes.ok cfg') :
    ∃ c, cfg.tasks.get? i = some (c, TaskPC.emit []) ∧
      cfg' = { cfg with tasks := cfg.tasks.set i (c, TaskPC.done) } := by
  unfold stepFinish at h
  split at h
  next c hg =>
    injection h with h
    exact ⟨c, hg, h.symm⟩
  next => exact StepRes.noConfusion h

/-! ### List bookkeeping helpers -/

theorem set_get?_self {α : Type} : ∀ {l : List α} {i : Nat} {a : α},
    l.get? i = some a → l.set i a = l := by
  intro l
  induction l with
  | nil => intro i a h; simp at h
  | cons x xs ih =>
    intro i a h
    cases i with
    | zero =>
      simp only [List.get?] at h
      injection h with h
      subst h
      simp
    | succ n =>
      simp only [List.get?] at h
      simp only [List.set]
      rw [ih h]

theorem sum_map_set {α M : Type} [AddCommMonoid M] (g : α → M) :
    ∀ (l : List α) (i : Nat) (x y : α), l.get? i = some y →
      ((l.set i x).map g).sum + g y = (l.map g).sum + g x := by
  intro l
  induction l with
  | nil => intro i x y h; simp at h
  | cons a as ih =>
    intro i x y h
    cases i with
    | zero =>
      simp only [List.get?] at h
      injection h with h
      subst h
      simp only [List.set, List.map_cons, List.sum_cons]
      abel
    | succ n =>
      simp only [List.get?] at h
      simp only [List.set, List.map_cons, List.sum_cons]
      rw [add_assoc, add_assoc, ih n x y h]

/-! ### C3: semaphore bound and prompt release -/

/-- A goroutine holds a permit exactly while between the semaphore send
and the semaphore receive. -/
def diffWeight : TaskPC → Nat
  | TaskPC.diffing => 1
  | TaskPC.postDiff _ => 1
  | _ => 0

/-- Number of goroutines currently inside the throttled diff-extraction
section. -/
def diffCount (ts : List (String × TaskPC)) : Nat :=
  (ts.map (fun t => diffWeight t.2)).sum

/-- The semaphore invariant: permits out = goroutines in the throttled
section, and never more than the capacity. -/
def InvPermits (cfg : Cfg) : Prop :=
  cfg.permits = diffCount cfg.tasks ∧ cfg.permits ≤ cfg.limit

theorem diffCount_set {ts : List (String × TaskPC)} {i : Nat} {c : String}
    {pc : TaskPC} (pc' : TaskPC) (hg : ts.get? i = some (c, pc)) :
    diffCount (ts.set i (c, pc')) + diffWeight pc = diffCount ts + diffWeight pc' := by
  simpa [diffCount] using
    sum_map_set (fun t => diffWeight t.2) ts i (c, pc') (c, pc) hg

theorem step_invPermits {diff : String → Option String}
    {checks : String → String → List LeakElem} {cfg : Cfg} {a : Act} {cfg' : Cfg}
    (hstep : step diff checks cfg a = StepRes.ok cfg') (hinv : InvPermits cfg) :
    InvPermits cfg' ∧ cfg'.limit = cfg.limit := by
  obtain ⟨hcount, hle⟩ := hinv
  cases a with
  | chdir i =>
    obtain ⟨c, hg, _, hcfg⟩ := stepChdir_ok hstep
    subst hcfg
    have hd := diffCount_set TaskPC.waitPermit hg
    rw [show diffWeight TaskPC.start = 0 from rfl,
        show diffWeight TaskPC.waitPermit = 0 from rfl] at hd
    exact ⟨⟨by dsimp only; omega, by dsimp only; exact hle⟩, rfl⟩
  | acquire i =>
    obtain ⟨c, hg, hlt, hcfg⟩ := stepAcquire_ok hstep
    subst hcfg
    have hd := diffCount_set TaskPC.diffing hg
    rw [show diffWeight TaskPC.waitPermit = 0 from rfl,
        show diffWeight TaskPC.diffing = 1 from rfl] at hd
    exact ⟨⟨by dsimp only; omega, by dsimp only; omega⟩, rfl⟩
  | diffRet i =>
    obtain ⟨c, hg, hcfg⟩ := stepDiffRet_ok hstep
    subst hcfg
    have hd := diffCount_set
      (TaskPC.postDiff (if cfg.repoExists && cfg.cwd then diff c else none)) hg
    rw [show diffWeight TaskPC.diffing = 1 from rfl,
        show ∀ r, diffWeight (TaskPC.postDiff r) = 1 from fun r => rfl] at hd
    exact ⟨⟨by dsimp only; omega, by dsimp only; exact hle⟩, rfl⟩
  | release i =>
    obtain ⟨c, res, hg, hcfg⟩ := stepRelease_ok hstep
    subst hcfg
    cases res with
    | none =>
      have hd := diffCount_set TaskPC.cleanupPhase hg
      rw [show ∀ r, diffWeight (TaskPC.postDiff r) = 1 from fun r => rfl,
          show diffWeight TaskPC.cleanupPhase = 0 from rfl] at hd
      exact ⟨⟨by dsimp only; omega, by dsimp only; omega⟩, rfl⟩
    | some out =>
      have hd := diffCount_set (TaskPC.emit (checks out c)) hg
      rw [show ∀ r, diffWeight (TaskPC.postDiff r) = 1 from fun r => rfl,
          show ∀ q, diffWeight (TaskPC.emit q) = 0 from fun q => rfl] at hd
      exact ⟨⟨by dsimp only; omega, by dsimp only; omega⟩, rfl⟩
  | cleanupRun i =>
    obtain ⟨c, hg, hcfg⟩ := stepCleanup_ok hstep
    subst hcfg
    have hd := diffCount_set TaskPC.done hg
    rw [show diffWeight TaskPC.cleanupPhase = 0 from rfl,
        show diffWeight TaskPC.done = 0 from rfl] at hd
    exact ⟨⟨by dsimp only; omega, by dsimp only; exact hle⟩, rfl⟩
  | send i =>
    obtain ⟨c, l, rest, hg, hcfg⟩ := stepSend_ok hstep
    subst hcfg
    have hd := diffCount_set (TaskPC.sendWait l rest) hg
    rw [show ∀ q, diffWeight (TaskPC.emit q) = 0 from fun q => rfl,
        show ∀ x q, diffWeight (TaskPC.sendWait x q) = 0 from fun x q => rfl] at hd
    exact ⟨⟨by dsimp only; omega, by dsimp only; exact hle⟩, rfl⟩
  | recvStep i =>
    obtain ⟨_, c, l, rest, hg, hcfg⟩ := stepRecv_ok hstep
    subst hcfg
    have hd := diffCount_set (TaskPC.emit rest) hg
    rw [show ∀ x q, diffWeight (TaskPC.sendWait x q) = 0 from fun x q => rfl,
        show ∀ q, diffWeight (TaskPC.emit q) = 0 from fun q => rfl] at hd
    exact ⟨⟨by dsimp only; omega, by dsimp only; exact hle⟩, rfl⟩
  | process =>
    obtain ⟨l, hrecv, hcfg⟩ := stepProcess_ok hstep
    subst hcfg
    exact ⟨⟨hcount, hle⟩, rfl⟩
  | finish i =>
    obtain ⟨c, hg, hcfg⟩ := stepFinish_ok hstep
    subst hcfg
    have hd := diffCount_set TaskPC.done hg
    rw [show ∀ q, diffWeight (TaskPC.emit q) = 0 from fun q => rfl,
        show diffWeight TaskPC.done = 0 from rfl] at hd
    exact ⟨⟨by dsimp only; omega, by dsimp only; exact hle⟩, rfl⟩

theorem execList_invPermits {diff : String → Option String}
    {checks : String → String → List LeakElem} :
    ∀ (as : List Act) (cfg cfg' : Cfg),
      execList diff checks cfg as = some cfg' → InvPermits cfg →
      InvPermits cfg' ∧ cfg'.limit = cfg.limit := by
  intro as
  induction as with
  | nil =>
    intro cfg cfg' h hinv
    simp only [execList] at h
    injection h with h
    subst h
    exact ⟨hinv, rfl⟩
  | cons a as ih =>
    intro cfg cfg' h hinv
    simp only [execList] at h
    cases hstep : step diff checks cfg a with
    | ok c2 =>
      rw [hstep] at h
      obtain ⟨hinv2, hlim2⟩ := step_invPermits hstep hinv
      obtain ⟨hinv3, hlim3⟩ := ih c2 cfg' h hinv2
      exact ⟨hinv3, hlim3.trans hlim2⟩
    | abort => rw [hstep] at h; exact Option.noConfusion h
    | blocked => rw [hstep] at h; exact Option.noConfusion h

theorem get?_some_lt {α : Type} : ∀ {l : List α} {i : Nat} {a : α},
    l.get? i = some a → i < l.length := by
  intro l
  induction l with
  | nil => intro i a h; simp at h
  | cons x xs ih =>
    intro i a h
    cases i with
    | zero => simp
    | succ n =>
      simp only [List.get?] at h
      simpa using ih h

theorem diffWeight_le_diffCount : ∀ {ts : List (String × TaskPC)} {i : Nat}
    {c : String} {pc : TaskPC}, ts.get? i = some (c, pc) →
    diffWeight pc ≤ diffCount ts := by
  intro ts
  induction ts with
  | nil => intro i c pc h; simp at h
  | cons t rest ih =>
    intro i c pc h
    cases i with
    | zero =>
      simp only [List.get?] at h
      injection h with h
      subst h
      simp only [diffCount, List.map_cons, List.sum_cons]
      omega
    | succ n =>
      simp only [List.get?] at h
      have := ih h
      simp only [diffCount, List.map_cons, List.sum_cons] at this ⊢
      omega

theorem diffCount_init (cs : List String) :
    diffCount (cs.map (fun c => (c, TaskPC.start))) = 0 := by
  induction cs with
  | nil => rfl
  | cons c rest ih =>
    simp only [List.map_cons, diffCount, List.sum_cons] at ih ⊢
    rw [ih]
    rfl

theorem invPermits_init (commits : List String) (stop : String) (limit : Nat) :
    InvPermits (initCfg commits stop limit) := by
  constructor
  · simp only [initCfg]
    exact (diffCount_init _).symm
  · exact Nat.zero_le _

/-- For a goroutine sitting at `postDiff` (diff returned, permit held),
the only enabled action that changes it is its own `release`. -/
theorem postDiff_only_release {diff : String → Option String}
    {checks : String → String → List LeakElem} {cfg : Cfg} {i : Nat}
    {c : String} {r : Option String}
    (hg : cfg.tasks.get? i = some (c, TaskPC.postDiff r)) :
    ∀ (a : Act) (cfg' : Cfg), step diff checks cfg a = StepRes.ok cfg' →
      cfg'.tasks.get? i = cfg.tasks.get? i ∨ a = Act.release i := by
  intro a cfg' hstep
  cases a with
  | chdir j =>
    obtain ⟨c', hg', _, hcfg⟩ := stepChdir_ok hstep
    subst hcfg
    by_cases hij : j = i
    · subst hij; rw [hg] at hg'; simp at hg'
    · left; exact List.get?_set_ne _ _ hij
  | acquire j =>
    obtain ⟨c', hg', _, hcfg⟩ := stepAcquire_ok hstep
    subst hcfg
    by_cases hij : j = i
    · subst hij; rw [hg] at hg'; simp at hg'
    · left; exact List.get?_set_ne _ _ hij
  | diffRet j =>
    obtain ⟨c', hg', hcfg⟩ := stepDiffRet_ok hstep
    subst hcfg
    by_cases hij : j = i
    · subst hij; rw [hg] at hg'; simp at hg'
    · left; exact List.get?_set_ne _ _ hij
  | release j =>
    obtain ⟨c', res', hg', hcfg⟩ := stepRelease_ok hstep
    subst hcfg
    by_cases hij : j = i
    · right; rw [hij]
    · left; exact List.get?_set_ne _ _ hij
  | cleanupRun j =>
    obtain ⟨c', hg', hcfg⟩ := stepCleanup_ok hstep
    subst hcfg
    by_cases hij : j = i
    · subst hij; rw [hg] at hg'; simp at hg'
    · left; exact List.get?_set_ne _ _ hij
  | send j =>
    obtain ⟨c', l, rest, hg', hcfg⟩ := stepSend_ok hstep
    subst hcfg
    by_cases hij : j = i
    · subst hij; rw [hg] at hg'; simp at hg'
    · left; exact List.get?_set_ne _ _ hij
  | recvStep j =>
    obtain ⟨_, c', l, rest, hg', hcfg⟩ := stepRecv_ok hstep
    subst hcfg
    by_cases hij : j = i
    · subst hij; rw [hg] at hg'; simp at hg'
    · left; exact List.get?_set_ne _ _ hij
  | process =>
    obtain ⟨l, _, hcfg⟩ := stepProcess_ok hstep
    subst hcfg
    left; rfl
  | finish j =>
    obtain ⟨c', hg', hcfg⟩ := stepFinish_ok hstep
    subst hcfg
    by_cases hij : j = i
    · subst hij; rw [hg] at hg'; simp at hg'
    · left; exact List.get?_set_ne _ _ hij

/-- C3: in every reachable configuration of an audit with concurrency
limit N, at most N goroutines are inside the throttled diff-extraction
section (between the semaphore send and receive), the permits out always
equal the goroutines in that section, and a goroutine whose diff just
returned (`postDiff`, success or failure) releases its permit as its one
next step — the `release` transition decrements the permit count and only
then moves the goroutine to the detection (`doChecks`) or cleanup
continuation; no other action moves such a goroutine. -/
theorem c3_bounded_diff_concurrency (diff : String → Option String)
    (checks : String → String → List LeakElem) (commits : List String)
    (stop : String) (limit : Nat) (as : List Act) (cfg : Cfg)
    (hexec : execList diff checks (initCfg commits stop limit) as = some cfg) :
    diffCount cfg.tasks ≤ limit ∧
    cfg.permits = diffCount cfg.tasks ∧
    (∀ i c r, cfg.tasks.get? i = some (c, TaskPC.postDiff r) →
      1 ≤ cfg.permits ∧
      (∀ cfg', step diff checks cfg (Act.release i) = StepRes.ok cfg' →
        cfg'.permits = cfg.permits - 1 ∧
        cfg'.tasks.get? i = some (c, match r with
          | none => TaskPC.cleanupPhase
          | some out => TaskPC.emit (checks out c))) ∧
      (∀ (a : Act) (cfg' : Cfg), step diff checks cfg a = StepRes.ok cfg' →
        cfg'.tasks.get? i = cfg.tasks.get? i ∨ a = Act.release i)) := by
  obtain ⟨⟨hcount, hle⟩, hlim⟩ :=
    execList_invPermits as (initCfg commits stop limit) cfg hexec
      (invPermits_init commits stop limit)
  have hlim' : cfg.limit = limit := hlim
  refine ⟨by omega, hcount, ?_⟩
  intro i c r hg
  have hwle := diffWeight_le_diffCount hg
  rw [show diffWeight (TaskPC.postDiff r) = 1 from rfl] at hwle
  refine ⟨by omega, ?_, postDiff_only_release hg⟩
  intro cfg' hstep
  obtain ⟨c', res', hg', hcfg⟩ := stepRelease_ok hstep
  rw [hg] at hg'
  injection hg' with hg'
  injection hg' with hc hres
  subst hc
  injection hres with hres
  subst hres
  subst hcfg
  constructor
  · rfl
  · exact List.get?_set_eq_of_lt _ (get?_some_lt hg)

/-- A reachable configuration with `c1`'s goroutine holding the single
permit right after its diff returned (in error). -/
def c3WitnessCfg : Cfg :=
  { tasks := [("c1", TaskPC.postDiff none), ("c2", TaskPC.start)], permits := 1,
    limit := 1, cwd := true, repoExists := true, recv := none, pending := 0,
    report := [], emitted := [] }

theorem c3_bounded_diff_concurrency_witness :
    execList failingDiffOracle simpleChecks (initCfg ["c1", "c2"] "" 1)
      [Act.chdir 0, Act.acquire 0, Act.diffRet 0] = some c3WitnessCfg ∧
    diffCount c3WitnessCfg.tasks ≤ 1 ∧
    1 ≤ c3WitnessCfg.permits :=
  ⟨rfl,
   (c3_bounded_diff_concurrency failingDiffOracle simpleChecks ["c1", "c2"] "" 1
      [Act.chdir 0, Act.acquire 0, Act.diffRet 0] c3WitnessCfg rfl).1,
   ((c3_bounded_diff_concurrency failingDiffOracle simpleChecks ["c1", "c2"] "" 1
      [Act.chdir 0, Act.acquire 0, Act.diffRet 0] c3WitnessCfg rfl).2.2 0 "c1" none
      rfl).1⟩

/-! ### C8: the aggregator and the two waits -/

/-- A goroutine contributes to `gitLeakReceiverWG` while blocked in a send. -/
def sendWeight : TaskPC → Nat
  | TaskPC.sendWait _ _ => 1
  | _ => 0

/-- Number of goroutines blocked in the channel send. -/
def sendCount (ts : List (String × TaskPC)) : Nat :=
  (ts.map (fun t => sendWeight t.2)).sum

/-- The aggregator holds a not-yet-appended leak. -/
def recvWeight : Option LeakElem → Nat
  | some _ => 1
  | none => 0

theorem sendCount_set {ts : List (String × TaskPC)} {i : Nat} {c : String}
    {pc : TaskPC} (pc' : TaskPC) (hg : ts.get? i = some (c, pc)) :
    sendCount (ts.set i (c, pc')) + sendWeight pc = sendCount ts + sendWeight pc' := by
  simpa [sendCount] using
    sum_map_set (fun t => sendWeight t.2) ts i (c, pc') (c, pc) hg

/-- `gitLeakReceiverWG`'s counter counts exactly the leaks in flight:
senders blocked in the channel plus the leak held by the aggregator. -/
def InvChannel (cfg : Cfg) : Prop :=
  cfg.pending = sendCount cfg.tasks + recvWeight cfg.recv

/-- The ghost log of handed-over leaks is exactly the report plus the leak
the aggregator still holds. -/
def InvAgg (cfg : Cfg) : Prop :=
  cfg.emitted = cfg.report ++ cfg.recv.toList

theorem step_invChannelAgg {diff : String → Option String}
    {checks : String → String → List LeakElem} {cfg : Cfg} {a : Act} {cfg' : Cfg}
    (hstep : step diff checks cfg a = StepRes.ok cfg')
    (hch : InvChannel cfg) (hag : InvAgg cfg) : InvChannel cfg' ∧ InvAgg cfg' := by
  simp only [InvChannel, InvAgg] at hch hag ⊢
  cases a with
  | chdir i =>
    obtain ⟨c, hg, _, hcfg⟩ := stepChdir_ok hstep
    subst hcfg
    have hs := sendCount_set TaskPC.waitPermit hg
    rw [show sendWeight TaskPC.start = 0 from rfl,
        show sendWeight TaskPC.waitPermit = 0 from rfl] at hs
    exact ⟨by dsimp only; omega, hag⟩
  | acquire i =>
    obtain ⟨c, hg, _, hcfg⟩ := stepAcquire_ok hstep
    subst hcfg
    have hs := sendCount_set TaskPC.diffing hg
    rw [show sendWeight TaskPC.waitPermit = 0 from rfl,
        show sendWeight TaskPC.diffing = 0 from rfl] at hs
    exact ⟨by dsimp only; omega, hag⟩
  | diffRet i =>
    obtain ⟨c, hg, hcfg⟩ := stepDiffRet_ok hstep
    subst hcfg
    have hs := sendCount_set
      (TaskPC.postDiff (if cfg.repoExists && cfg.cwd then diff c else none)) hg
    rw [show sendWeight TaskPC.diffing = 0 from rfl,
        show ∀ r, sendWeight (TaskPC.postDiff r) = 0 from fun r => rfl] at hs
    exact ⟨by dsimp only; omega, hag⟩
  | release i =>
    obtain ⟨c, res, hg, hcfg⟩ := stepRelease_ok hstep
    subst hcfg
    cases res with
    | none =>
      have hs := sendCount_set TaskPC.cleanupPhase hg
      rw [show ∀ r, sendWeight (TaskPC.postDiff r) = 0 from fun r => rfl,
          show sendWeight TaskPC.cleanupPhase = 0 from rfl] at hs
      exact ⟨by dsimp only; omega, hag⟩
    | some out =>
      have hs := sendCount_set (TaskPC.emit (checks out c)) hg
      rw [show ∀ r, sendWeight (TaskPC.postDiff r) = 0 from fun r => rfl,
          show ∀ q, sendWeight (TaskPC.emit q) = 0 from fun q => rfl] at hs
      exact ⟨by dsimp only; omega, hag⟩
  | cleanupRun i =>
    obtain ⟨c, hg, hcfg⟩ := stepCleanup_ok hstep
    subst hcfg
    have hs := sendCount_set TaskPC.done hg
    rw [show sendWeight TaskPC.cleanupPhase = 0 from rfl,
        show sendWeight TaskPC.done = 0 from rfl] at hs
    exact ⟨by dsimp only; omega, hag⟩
  | send i =>
    obtain ⟨c, l, rest, hg, hcfg⟩ := stepSend_ok hstep
    subst hcfg
    have hs := sendCount_set (TaskPC.sendWait l rest) hg
    rw [show ∀ q, sendWeight (TaskPC.emit q) = 0 from fun q => rfl,
        show ∀ x q, sendWeight (TaskPC.sendWait x q) = 1 from fun x q => rfl] at hs
    exact ⟨by dsimp only; omega, hag⟩
  | recvStep i =>
    obtain ⟨hrecv, c, l, rest, hg, hcfg⟩ := stepRecv_ok hstep
    subst hcfg
    have hs := sendCount_set (TaskPC.emit rest) hg
    rw [show ∀ x q, sendWeight (TaskPC.sendWait x q) = 1 from fun x q => rfl,
        show ∀ q, sendWeight (TaskPC.emit q) = 0 from fun q => rfl] at hs
    rw [hrecv] at hch hag
    constructor
    · dsimp only
      rw [show ∀ x : LeakElem, recvWeight (some x) = 1 from fun x => rfl]
      rw [show recvWeight none = 0 from rfl] at hch
      omega
    · dsimp only
      rw [hag]
      simp
  | process =>
    obtain ⟨l, hrecv, hcfg⟩ := stepProcess_ok hstep
    subst hcfg
    rw [hrecv] at hch hag
    rw [show ∀ x : LeakElem, recvWeight (some x) = 1 from fun x => rfl] at hch
    constructor
    · dsimp only
      rw [show recvWeight none = 0 from rfl]
      omega
    · dsimp only
      rw [hag]
      simp
  | finish i =>
    obtain ⟨c, hg, hcfg⟩ := stepFinish_ok hstep
    subst hcfg
    have hs := sendCount_set TaskPC.done hg
    rw [show ∀ q, sendWeight (TaskPC.emit q) = 0 from fun q => rfl,
        show sendWeight TaskPC.done = 0 from rfl] at hs
    exact ⟨by dsimp only; omega, hag⟩

theorem execList_invChannelAgg {diff : String → Option String}
    {checks : String → String → List LeakElem} :
    ∀ (as : List Act) (cfg cfg' : Cfg),
      execList diff checks cfg as = some cfg' → InvChannel cfg → InvAgg cfg →
      InvChannel cfg' ∧ InvAgg cfg' := by
  intro as
  induction as with
  | nil =>
    intro cfg cfg' h hch hag
    simp only [execList] at h
    injection h with h
    subst h
    exact ⟨hch, hag⟩
  | cons a as ih =>
    intro cfg cfg' h hch hag
    simp only [execList] at h
    cases hstep : step diff checks cfg a with
    | ok c2 =>
      rw [hstep] at h
      obtain ⟨hch2, hag2⟩ := step_invChannelAgg hstep hch hag
      exact ih c2 cfg' h hch2 hag2
    | abort => rw [hstep] at h; exact Option.noConfusion h
    | blocked => rw [hstep] at h; exact Option.noConfusion h

theorem isDone_eq {pc : TaskPC} (h : isDone pc = true) : pc = TaskPC.done := by
  cases pc <;> first | rfl | exact Bool.noConfusion h

theorem sendCount_all_done : ∀ {ts : List (String × TaskPC)},
    ts.all (fun t => isDone t.2) = true → sendCount ts = 0 := by
  intro ts
  induction ts with
  | nil => intro _; rfl
  | cons t rest ih =>
    intro h
    rw [List.all_cons, Bool.and_eq_true] at h
    have hdone := isDone_eq h.1
    simp only [sendCount, List.map_cons, List.sum_cons]
    have := ih h.2
    simp only [sendCount] at this
    rw [this, hdone]
    rfl

theorem sendCount_init (cs : List String) :
    sendCount (cs.map (fun c => (c, TaskPC.start))) = 0 := by
  induction cs with
  | nil => rfl
  | cons c rest ih =>
    simp only [List.map_cons, sendCount, List.sum_cons] at ih ⊢
    rw [ih]
    rfl

theorem invChannel_init (commits : List String) (stop : String) (limit : Nat) :
    InvChannel (initCfg commits stop limit) := by
  rw [InvChannel]
  simp only [initCfg]
  rw [sendCount_init]
  rfl

theorem invAgg_init (commits : List String) (stop : String) (limit : Nat) :
    InvAgg (initCfg commits stop limit) := rfl

theorem runList_completed {diff : String → Option String}
    {checks : String → String → List LeakElem} :
    ∀ (as : List Act) (cfg : Cfg) (r : List LeakElem),
      runList diff checks cfg as = Outcome.completed r →
      ∃ cfg', execList diff checks cfg as = some cfg' ∧
        canReturn cfg' = true ∧ r = cfg'.report := by
  intro as
  induction as with
  | nil =>
    intro cfg r h
    simp only [runList] at h
    by_cases hc : canReturn cfg = true
    · rw [if_pos hc] at h
      injection h with h
      exact ⟨cfg, rfl, hc, h.symm⟩
    · rw [if_neg hc] at h
      exact Outcome.noConfusion h
  | cons a as ih =>
    intro cfg r h
    simp only [runList] at h
    cases hstep : step diff checks cfg a with
    | ok c2 =>
      rw [hstep] at h
      obtain ⟨cfg', hexec, hcan, hr⟩ := ih c2 r h
      refine ⟨cfg', ?_, hcan, hr⟩
      simp only [execList, hstep]
      exact hexec
    | abort => rw [hstep] at h; exact Outcome.noConfusion h
    | blocked => rw [hstep] at h; exact Outcome.noConfusion h

/-- Only the aggregator's append step grows the report. -/
theorem report_growth {diff : String → Option String}
    {checks : String → String → List LeakElem} (cfg : Cfg) (a : Act) (cfg' : Cfg)
    (hstep : step diff checks cfg a = StepRes.ok cfg') :
    cfg'.report = cfg.report ∨
      ∃ l, cfg.recv = some l ∧ a = Act.process ∧
        cfg'.report = cfg.report ++ [l] := by
  cases a with
  | chdir i =>
    obtain ⟨c, hg, _, hcfg⟩ := stepChdir_ok hstep
    subst hcfg; left; rfl
  | acquire i =>
    obtain ⟨c, hg, _, hcfg⟩ := stepAcquire_ok hstep
    subst hcfg; left; rfl
  | diffRet i =>
    obtain ⟨c, hg, hcfg⟩ := stepDiffRet_ok hstep
    subst hcfg; left; rfl
  | release i =>
    obtain ⟨c, res, hg, hcfg⟩ := stepRelease_ok hstep
    subst hcfg; left; rfl
  | cleanupRun i =>
    obtain ⟨c, hg, hcfg⟩ := stepCleanup_ok hstep
    subst hcfg; left; rfl
  | send i =>
    obtain ⟨c, l, rest, hg, hcfg⟩ := stepSend_ok hstep
    subst hcfg; left; rfl
  | recvStep i =>
    obtain ⟨_, c, l, rest, hg, hcfg⟩ := stepRecv_ok hstep
    subst hcfg; left; rfl
  | process =>
    obtain ⟨l, hrecv, hcfg⟩ := stepProcess_ok hstep
    subst hcfg
    exact Or.inr ⟨l, hrecv, rfl, rfl⟩
  | finish i =>
    obtain ⟨c, hg, hcfg⟩ := stepFinish_ok hstep
    subst hcfg; left; rfl

/-- C8: a completed audit returns its report only once every dispatched
goroutine has finished and the receiver counter is back to zero; at that
point the report equals, element for element, the ghost log of every leak
handed to the aggregator — and, structurally, the report grows only by
the aggregator's append step. -/
theorem c8_report_frozen_after_completion (diff : String → Option String)
    (checks : String → String → List LeakElem) (commits : List String)
    (stop : String) (limit : Nat) (as : List Act) (r : List LeakElem)
    (hrun : runList diff checks (initCfg commits stop limit) as =
      Outcome.completed r) :
    (∃ cfg, execList diff checks (initCfg commits stop limit) as = some cfg ∧
      cfg.tasks.all (fun t => isDone t.2) = true ∧ cfg.pending = 0 ∧
      r = cfg.report ∧ cfg.report = cfg.emitted) ∧
    (∀ (cfg cfg' : Cfg) (a : Act), step diff checks cfg a = StepRes.ok cfg' →
      cfg'.report = cfg.report ∨
        ∃ l, cfg.recv = some l ∧ a = Act.process ∧
          cfg'.report = cfg.report ++ [l]) := by
  refine ⟨?_, fun cfg cfg' a h => report_growth cfg a cfg' h⟩
  obtain ⟨cfg, hexec, hcan, hr⟩ := runList_completed as _ r hrun
  rw [canReturn, Bool.and_eq_true, beq_iff_eq] at hcan
  obtain ⟨hdone, hpend⟩ := hcan
  obtain ⟨hch, hag⟩ := execList_invChannelAgg as _ cfg hexec
    (invChannel_init commits stop limit) (invAgg_init commits stop limit)
  rw [InvChannel] at hch
  rw [InvAgg] at hag
  have hsc : sendCount cfg.tasks = 0 := sendCount_all_done hdone
  have hrecv : cfg.recv = none := by
    rw [hpend, hsc] at hch
    cases hx : cfg.recv with
    | none => rfl
    | some l =>
      rw [hx, show ∀ x : LeakElem, recvWeight (some x) = 1 from fun x => rfl] at hch
      omega
  rw [hrecv] at hag
  simp only [Option.toList, List.append_nil] at hag
  exact ⟨cfg, hexec, hdone, hpend, hr, hag.symm⟩

theorem c8_report_frozen_after_completion_witness :
    runList failingDiffOracle simpleChecks (initCfg ["c1", "c2"] "" 1)
      [Act.chdir 1, Act.acquire 1, Act.diffRet 1, Act.release 1, Act.send 1,
       Act.recvStep 1, Act.process, Act.finish 1, Act.chdir 0, Act.acquire 0,
       Act.diffRet 0, Act.release 0, Act.cleanupRun 0] =
      Outcome.completed [{ line := "l", commit := "c2", offender := "o", reason := "AWS" }] ∧
    (∃ cfg, execList failingDiffOracle simpleChecks (initCfg ["c1", "c2"] "" 1)
        [Act.chdir 1, Act.acquire 1, Act.diffRet 1, Act.release 1, Act.send 1,
         Act.recvStep 1, Act.process, Act.finish 1, Act.chdir 0, Act.acquire 0,
         Act.diffRet 0, Act.release 0, Act.cleanupRun 0] = some cfg ∧
      cfg.tasks.all (fun t => isDone t.2) = true ∧ cfg.pending = 0 ∧
      [{ line := "l", commit := "c2", offender := "o", reason := "AWS" }] = cfg.report ∧
      cfg.report = cfg.emitted) :=
  ⟨by decide,
   (c8_report_frozen_after_completion failingDiffOracle simpleChecks ["c1", "c2"] "" 1
      [Act.chdir 1, Act.acquire 1, Act.diffRet 1, Act.release 1, Act.send 1,
       Act.recvStep 1, Act.process, Act.finish 1, Act.chdir 0, Act.acquire 0,
       Act.diffRet 0, Act.release 0, Act.cleanupRun 0]
      [{ line := "l", commit := "c2", offender := "o", reason := "AWS" }]
      (by decide)).1⟩

/-! ### C2: leak conservation when every diff succeeds -/

theorem ofList_append {α : Type} (a b : List α) :
    Multiset.ofList (a ++ b) = Multiset.ofList a + Multiset.ofList b := rfl

/-- The leaks a goroutine will still hand to the aggregator, assuming
every diff succeeds: before the diff, everything `doChecks` will find on
its diff; after, whatever is still queued or in the channel. -/
def futureLeaks (diff : String → Option String)
    (checks : String → String → List LeakElem) :
    String × TaskPC → Multiset LeakElem
  | (c, TaskPC.start) => Multiset.ofList (checks ((diff c).getD "") c)
  | (c, TaskPC.waitPermit) => Multiset.ofList (checks ((diff c).getD "") c)
  | (c, TaskPC.diffing) => Multiset.ofList (checks ((diff c).getD "") c)
  | (c, TaskPC.postDiff (some out)) => Multiset.ofList (checks out c)
  | (_, TaskPC.postDiff none) => 0
  | (_, TaskPC.cleanupPhase) => 0
  | (_, TaskPC.emit q) => Multiset.ofList q
  | (_, TaskPC.sendWait l q) => Multiset.ofList [l] + Multiset.ofList q
  | (_, TaskPC.done) => 0

def futureSum (diff : String → Option String)
    (checks : String → String → List LeakElem)
    (ts : List (String × TaskPC)) : Multiset LeakElem :=
  (ts.map (futureLeaks diff checks)).sum

theorem futureSum_set (diff : String → Option String)
    (checks : String → String → List LeakElem) {ts : List (String × TaskPC)}
    {i : Nat} {c : String} {pc : TaskPC} (pc' : TaskPC)
    (hg : ts.get? i = some (c, pc)) :
    futureSum diff checks (ts.set i (c, pc')) + futureLeaks diff checks (c, pc) =
      futureSum diff checks ts + futureLeaks diff checks (c, pc') := by
  simpa [futureSum] using
    sum_map_set (futureLeaks diff checks) ts i (c, pc') (c, pc) hg

theorem succ_set {diff : String → Option String} {ts : List (String × TaskPC)}
    {i : Nat} {c : String} {pc : TaskPC} (pc' : TaskPC)
    (hg : ts.get? i = some (c, pc))
    (H : ∀ j c2 pc2, ts.get? j = some (c2, pc2) → (diff c2).isSome = true) :
    ∀ j c2 pc2, (ts.set i (c, pc')).get? j = some (c2, pc2) →
      (diff c2).isSome = true := by
  intro j c2 pc2 hj
  by_cases hij : i = j
  · subst hij
    rw [List.get?_set_eq_of_lt _ (get?_some_lt hg)] at hj
    injection hj with hj
    injection hj with h1 h2
    subst h1
    exact H i c pc hg
  · rw [List.get?_set_ne _ _ hij] at hj
    exact H j c2 pc2 hj

theorem post_set {diff : String → Option String} {ts : List (String × TaskPC)}
    {i : Nat} {c : String} {pc : TaskPC} (pc' : TaskPC)
    (hpc' : ∀ r, pc' = TaskPC.postDiff r → r = diff c)
    (hg : ts.get? i = some (c, pc))
    (H : ∀ j c2 r, ts.get? j = some (c2, TaskPC.postDiff r) → r = diff c2) :
    ∀ j c2 r, (ts.set i (c, pc')).get? j = some (c2, TaskPC.postDiff r) →
      r = diff c2 := by
  intro j c2 r hj
  by_cases hij : i = j
  · subst hij
    rw [List.get?_set_eq_of_lt _ (get?_some_lt hg)] at hj
    injection hj with hj
    injection hj with h1 h2
    subst h1
    exact hpc' r h2
  · rw [List.get?_set_ne _ _ hij] at hj
    exact H j c2 r hj

theorem nocl_set {ts : List (String × TaskPC)} {i : Nat} {c : String}
    {pc : TaskPC} (pc' : TaskPC) (hpc' : pc' ≠ TaskPC.cleanupPhase)
    (hg : ts.get? i = some (c, pc))
    (H : ∀ j c2, ts.get? j ≠ some (c2, TaskPC.cleanupPhase)) :
    ∀ j c2, (ts.set i (c, pc')).get? j ≠ some (c2, TaskPC.cleanupPhase) := by
  intro j c2 hj
  by_cases hij : i = j
  · subst hij
    rw [List.get?_set_eq_of_lt _ (get?_some_lt hg)] at hj
    injection hj with hj
    injection hj with h1 h2
    exact hpc' h2
  · rw [List.get?_set_ne _ _ hij] at hj
    exact H j c2 hj

/-- The conservation invariant of an audit in which every dispatched
commit's diff succeeds: the clone survives, the process stays in it, every
returned diff carries the oracle's output, no goroutine ever reaches the
cleanup path, and report + channel + still-to-come leaks form the fixed
multiset `M0`. -/
structure InvLeaks (diff : String → Option String)
    (checks : String → String → List LeakElem) (M0 : Multiset LeakElem)
    (cfg : Cfg) : Prop where
  repo : cfg.repoExists = true
  dir : cfg.cwd = true
  succ : ∀ i c pc, cfg.tasks.get? i = some (c, pc) → (diff c).isSome = true
  post : ∀ i c r, cfg.tasks.get? i = some (c, TaskPC.postDiff r) → r = diff c
  nocl : ∀ i c, cfg.tasks.get? i ≠ some (c, TaskPC.cleanupPhase)
  total : Multiset.ofList cfg.report + Multiset.ofList cfg.recv.toList +
      futureSum diff checks cfg.tasks = M0

theorem step_invLeaks {diff : String → Option String}
    {checks : String → String → List LeakElem} {M0 : Multiset LeakElem}
    {cfg : Cfg} {a : Act} {cfg' : Cfg}
    (hstep : step diff checks cfg a = StepRes.ok cfg')
    (hinv : InvLeaks diff checks M0 cfg) : InvLeaks diff checks M0 cfg' := by
  obtain ⟨hrepo, hdir, hsucc, hpost, hnocl, htotal⟩ := hinv
  cases a with
  | chdir i =>
    obtain ⟨c, hg, _, hcfg⟩ := stepChdir_ok hstep
    subst hcfg
    have hfs := futureSum_set diff checks TaskPC.waitPermit hg
    have heq : futureSum diff checks (cfg.tasks.set i (c, TaskPC.waitPermit)) =
        futureSum diff checks cfg.tasks :=
      add_right_cancel hfs
    refine ⟨hrepo, rfl, succ_set _ hg hsucc,
      post_set _ (fun r hr => TaskPC.noConfusion hr) hg hpost,
      nocl_set _ (fun hcon => TaskPC.noConfusion hcon) hg hnocl, ?_⟩
    dsimp only
    rw [heq]
    exact htotal
  | acquire i =>
    obtain ⟨c, hg, _, hcfg⟩ := stepAcquire_ok hstep
    subst hcfg
    have hfs := futureSum_set diff checks TaskPC.diffing hg
    have heq : futureSum diff checks (cfg.tasks.set i (c, TaskPC.diffing)) =
        futureSum diff checks cfg.tasks :=
      add_right_cancel hfs
    refine ⟨hrepo, hdir, succ_set _ hg hsucc,
      post_set _ (fun r hr => TaskPC.noConfusion hr) hg hpost,
      nocl_set _ (fun hcon => TaskPC.noConfusion hcon) hg hnocl, ?_⟩
    dsimp only
    rw [heq]
    exact htotal
  | diffRet i =>
    obtain ⟨c, hg, hcfg⟩ := stepDiffRet_ok hstep
    subst hcfg
    have hcond : (cfg.repoExists && cfg.cwd) = true := by rw [hrepo, hdir]; rfl
    obtain ⟨out, hout⟩ := Option.isSome_iff_exists.mp (hsucc i c TaskPC.diffing hg)
    have hval : (if cfg.repoExists && cfg.cwd then diff c else none) = some out := by
      rw [hcond, hout]
      simp
    rw [hval]
    have hfs := futureSum_set diff checks
      (TaskPC.postDiff (some out)) hg
    have hFold : futureLeaks diff checks (c, TaskPC.diffing) =
        futureLeaks diff checks (c, TaskPC.postDiff (some out)) := by
      show Multiset.ofList (checks ((diff c).getD "") c) =
        Multiset.ofList (checks out c)
      rw [hout]
      rfl
    rw [hFold] at hfs
    have heq := add_right_cancel hfs
    refine ⟨hrepo, hdir, succ_set _ hg hsucc,
      post_set _ (fun r hr => by
        injection hr with hr
        rw [← hr]
        exact hout.symm) hg hpost,
      nocl_set _ (fun hcon => TaskPC.noConfusion hcon) hg hnocl, ?_⟩
    dsimp only
    rw [heq]
    exact htotal
  | release i =>
    obtain ⟨c, res, hg, hcfg⟩ := stepRelease_ok hstep
    have hres : res = diff c := hpost i c res hg
    obtain ⟨out, hout⟩ :=
      Option.isSome_iff_exists.mp (hsucc i c (TaskPC.postDiff res) hg)
    rw [hout] at hres
    subst hres
    subst hcfg
    have hfs := futureSum_set diff checks
      (TaskPC.emit (checks out c)) hg
    have hFold : futureLeaks diff checks (c, TaskPC.postDiff (some out)) =
        futureLeaks diff checks (c, TaskPC.emit (checks out c)) := rfl
    rw [hFold] at hfs
    have heq := add_right_cancel hfs
    refine ⟨hrepo, hdir, succ_set _ hg hsucc,
      post_set _ (fun r hr => TaskPC.noConfusion hr) hg hpost,
      nocl_set _ (fun hcon => TaskPC.noConfusion hcon) hg hnocl, ?_⟩
    dsimp only
    rw [heq]
    exact htotal
  | cleanupRun i =>
    obtain ⟨c, hg, _⟩ := stepCleanup_ok hstep
    exact absurd hg (hnocl i c)
  | send i =>
    obtain ⟨c, l, rest, hg, hcfg⟩ := stepSend_ok hstep
    subst hcfg
    have hfs := futureSum_set diff checks
      (TaskPC.sendWait l rest) hg
    have hFold : futureLeaks diff checks (c, TaskPC.emit (l :: rest)) =
        futureLeaks diff checks (c, TaskPC.sendWait l rest) := by
      show Multiset.ofList (l :: rest) =
        Multiset.ofList [l] + Multiset.ofList rest
      rw [← ofList_append]
      rfl
    rw [hFold] at hfs
    have heq := add_right_cancel hfs
    refine ⟨hrepo, hdir, succ_set _ hg hsucc,
      post_set _ (fun r hr => TaskPC.noConfusion hr) hg hpost,
      nocl_set _ (fun hcon => TaskPC.noConfusion hcon) hg hnocl, ?_⟩
    dsimp only
    rw [heq]
    exact htotal
  | recvStep i =>
    obtain ⟨hrecv, c, l, rest, hg, hcfg⟩ := stepRecv_ok hstep
    subst hcfg
    rw [hrecv] at htotal
    have hfs := futureSum_set diff checks
      (TaskPC.emit rest) hg
    have hFold : futureLeaks diff checks (c, TaskPC.sendWait l rest) =
        Multiset.ofList [l] + futureLeaks diff checks (c, TaskPC.emit rest) := rfl
    rw [hFold, ← add_assoc] at hfs
    have key := add_right_cancel hfs
    refine ⟨hrepo, hdir, succ_set _ hg hsucc,
      post_set _ (fun r hr => TaskPC.noConfusion hr) hg hpost,
      nocl_set _ (fun hcon => TaskPC.noConfusion hcon) hg hnocl, ?_⟩
    dsimp only [Option.toList]
    rw [← key] at htotal
    rw [← htotal]
    simp only [Option.toList, List.append_nil]
    have hz : Multiset.ofList ([] : List LeakElem) = 0 := rfl
    rw [hz, add_zero]
    abel
  | process =>
    obtain ⟨l, hrecv, hcfg⟩ := stepProcess_ok hstep
    subst hcfg
    rw [hrecv] at htotal
    refine ⟨hrepo, hdir, hsucc, hpost, hnocl, ?_⟩
    dsimp only [Option.toList]
    rw [ofList_append]
    rw [← htotal]
    dsimp only [Option.toList]
    have hz : Multiset.ofList ([] : List LeakElem) = 0 := rfl
    rw [hz, add_zero]
  | finish i =>
    obtain ⟨c, hg, hcfg⟩ := stepFinish_ok hstep
    subst hcfg
    have hfs := futureSum_set diff checks TaskPC.done hg
    have hFold : futureLeaks diff checks (c, TaskPC.emit []) =
        futureLeaks diff checks (c, TaskPC.done) := rfl
    rw [hFold] at hfs
    have heq := add_right_cancel hfs
    refine ⟨hrepo, hdir, succ_set _ hg hsucc,
      post_set _ (fun r hr => TaskPC.noConfusion hr) hg hpost,
      nocl_set _ (fun hcon => TaskPC.noConfusion hcon) hg hnocl, ?_⟩
    dsimp only
    rw [heq]
    exact htotal

theorem execList_invLeaks {diff : String → Option String}
    {checks : String → String → List LeakElem} {M0 : Multiset LeakElem} :
    ∀ (as : List Act) (cfg cfg' : Cfg),
      execList diff checks cfg as = some cfg' → InvLeaks diff checks M0 cfg →
      InvLeaks diff checks M0 cfg' := by
  intro as
  induction as with
  | nil =>
    intro cfg cfg' h hinv
    simp only [execList] at h
    injection h with h
    subst h
    exact hinv
  | cons a as ih =>
    intro cfg cfg' h hinv
    simp only [execList] at h
    cases hstep : step diff checks cfg a with
    | ok c2 =>
      rw [hstep] at h
      exact ih c2 cfg' h (step_invLeaks hstep hinv)
    | abort => rw [hstep] at h; exact Option.noConfusion h
    | blocked => rw [hstep] at h; exact Option.noConfusion h

/-- The canonical leak multiset of an audit scope: everything `doChecks`
finds on the (successful) diffs of the dispatched commits. -/
def canonicalLeaks (diff : String → Option String)
    (checks : String → String → List LeakElem) (commits : List String)
    (stop : String) : Multiset LeakElem :=
  futureSum diff checks ((dispatchList stop commits).map (fun c => (c, TaskPC.start)))

theorem invLeaks_init (diff : String → Option String)
    (checks : String → String → List LeakElem) (commits : List String)
    (stop : String) (limit : Nat)
    (H : ∀ c ∈ dispatchList stop commits, (diff c).isSome = true) :
    InvLeaks diff checks (canonicalLeaks diff checks commits stop)
      (initCfg commits stop limit) := by
  refine ⟨rfl, rfl, ?_, ?_, ?_, ?_⟩
  · intro i c pc hg
    have hmem := List.get?_mem hg
    obtain ⟨c', hc', heq⟩ := List.mem_map.mp hmem
    injection heq with h1 h2
    subst h1
    exact H c' hc'
  · intro i c r hg
    have hmem := List.get?_mem hg
    obtain ⟨c', hc', heq⟩ := List.mem_map.mp hmem
    injection heq with h1 h2
    exact TaskPC.noConfusion h2
  · intro i c hg
    have hmem := List.get?_mem hg
    obtain ⟨c', hc', heq⟩ := List.mem_map.mp hmem
    injection heq with h1 h2
    exact TaskPC.noConfusion h2
  · show Multiset.ofList [] + Multiset.ofList (Option.toList none) +
      futureSum diff checks _ = _
    have hz : Multiset.ofList ([] : List LeakElem) = 0 := rfl
    dsimp only [Option.toList]
    rw [hz, zero_add, zero_add]
    rfl

theorem futureSum_all_done {diff : String → Option String}
    {checks : String → String → List LeakElem} :
    ∀ {ts : List (String × TaskPC)},
      ts.all (fun t => isDone t.2) = true → futureSum diff checks ts = 0 := by
  intro ts
  induction ts with
  | nil => intro _; rfl
  | cons t rest ih =>
    intro h
    rw [List.all_cons, Bool.and_eq_true] at h
    have hdone := isDone_eq h.1
    have hrest := ih h.2
    simp only [futureSum, List.map_cons, List.sum_cons] at hrest ⊢
    rw [hrest]
    obtain ⟨c, pc⟩ := t
    dsimp only at hdone
    subst hdone
    rfl

/-- A completed run with an all-successful diff oracle returns the
canonical leak multiset, whatever the schedule and concurrency limit. -/
theorem completed_report_canonical (diff : String → Option String)
    (checks : String → String → List LeakElem) (commits : List String)
    (stop : String) (limit : Nat) (as : List Act) (r : List LeakElem)
    (H : ∀ c ∈ dispatchList stop commits, (diff c).isSome = true)
    (hrun : runList diff checks (initCfg commits stop limit) as =
      Outcome.completed r) :
    Multiset.ofList r = canonicalLeaks diff checks commits stop := by
  obtain ⟨cfg, hexec, hcan, hr⟩ := runList_completed as _ r hrun
  rw [canReturn, Bool.and_eq_true, beq_iff_eq] at hcan
  obtain ⟨hdone, hpend⟩ := hcan
  have hinv := execList_invLeaks as _ cfg hexec
    (invLeaks_init diff checks commits stop limit H)
  obtain ⟨hch, _⟩ := execList_invChannelAgg as _ cfg hexec
    (invChannel_init commits stop limit) (invAgg_init commits stop limit)
  rw [InvChannel] at hch
  have hsc : sendCount cfg.tasks = 0 := sendCount_all_done hdone
  have hrecv : cfg.recv = none := by
    rw [hpend, hsc] at hch
    cases hx : cfg.recv with
    | none => rfl
    | some l =>
      rw [hx, show ∀ x : LeakElem, recvWeight (some x) = 1 from fun x => rfl] at hch
      omega
  have htotal := hinv.total
  rw [hrecv, futureSum_all_done hdone] at htotal
  dsimp only [Option.toList] at htotal
  have hz : Multiset.ofList ([] : List LeakElem) = 0 := rfl
  rw [hz, add_zero, add_zero] at htotal
  rw [hr]
  exact htotal

/-- C2 (amended): provided every dispatched commit's diff extraction
succeeds, any two complete runs of the audit over the same commit set and
rule configuration — under any two concurrency limits and any two
schedules — return equal leak multisets (the canonical one). -/
theorem c2_concurrency_independence (diff : String → Option String)
    (checks : String → String → List LeakElem) (commits : List String)
    (stop : String) (N1 N2 : Nat) (as1 as2 : List Act) (r1 r2 : List LeakElem)
    (H : ∀ c ∈ dispatchList stop commits, (diff c).isSome = true)
    (h1 : runList diff checks (initCfg commits stop N1) as1 =
      Outcome.completed r1)
    (h2 : runList diff checks (initCfg commits stop N2) as2 =
      Outcome.completed r2) :
    Multiset.ofList r1 = Multiset.ofList r2 := by
  rw [completed_report_canonical diff checks commits stop N1 as1 r1 H h1,
      completed_report_canonical diff checks commits stop N2 as2 r2 H h2]

/-- A diff oracle that succeeds on every commit. -/
def okDiffOracle : String → Option String := fun _ => some "d"

theorem c2_concurrency_independence_witness :
    Multiset.ofList
        ([{ line := "l", commit := "a", offender := "o", reason := "AWS" },
          { line := "l", commit := "b", offender := "o", reason := "AWS" }] :
          List LeakElem) =
      Multiset.ofList
        ([{ line := "l", commit := "b", offender := "o", reason := "AWS" },
          { line := "l", commit := "a", offender := "o", reason := "AWS" }] :
          List LeakElem) :=
  c2_concurrency_independence okDiffOracle simpleChecks ["a", "b"] "" 1 2
    [Act.chdir 0, Act.acquire 0, Act.diffRet 0, Act.release 0, Act.send 0,
     Act.recvStep 0, Act.process, Act.finish 0, Act.chdir 1, Act.acquire 1,
     Act.diffRet 1, Act.release 1, Act.send 1, Act.recvStep 1, Act.process,
     Act.finish 1]
    [Act.chdir 1, Act.acquire 1, Act.diffRet 1, Act.release 1, Act.send 1,
     Act.recvStep 1, Act.process, Act.finish 1, Act.chdir 0, Act.acquire 0,
     Act.diffRet 0, Act.release 0, Act.send 0, Act.recvStep 0, Act.process,
     Act.finish 0]
    ([{ line := "l", commit := "a", offender := "o", reason := "AWS" },
      { line := "l", commit := "b", offender := "o", reason := "AWS" }] : List LeakElem)
    ([{ line := "l", commit := "b", offender := "o", reason := "AWS" },
      { line := "l", commit := "a", offender := "o", reason := "AWS" }] : List LeakElem)
    (by decide) (by decide) (by decide)
